import Mathlib

/-!
Verification development for the StackCompass repository-analysis pipeline
(`supabase/functions/analyze-repository/index.ts`).

Strings are modelled as `List Char`.  JavaScript regular expressions used by
the source are modelled by explicit scanners over `List Char`; `\s` is the
JavaScript whitespace class and `\d` the ASCII digits.  Rational numbers
(`ℚ`) stand for JavaScript numeric arithmetic.
-/

namespace StackCompass

/-! ## String utilities -/

/-- `isPre needle hay` holds when `needle` is a prefix of `hay`. -/
def isPre : List Char → List Char → Bool
  | [], _ => true
  | _ :: _, [] => false
  | a :: as, b :: bs => a == b && isPre as bs

/-- `containsSub hay needle`: models JavaScript `hay.includes(needle)`. -/
def containsSub : List Char → List Char → Bool
  | [], needle => isPre needle []
  | c :: t, needle => isPre needle (c :: t) || containsSub t needle

/-- `endsWith p s`: models JavaScript `p.endsWith(s)`. -/
def endsWith (p : List Char) (s : String) : Bool :=
  isPre s.toList.reverse p.reverse

theorem isPre_iff (n h : List Char) : isPre n h = true ↔ ∃ r, h = n ++ r := by
  induction n generalizing h with
  | nil => simp [isPre]
  | cons a as ih =>
    cases h with
    | nil => simp [isPre]
    | cons b bs =>
      simp only [isPre, Bool.and_eq_true, beq_iff_eq, ih]
      constructor
      · rintro ⟨rfl, r, rfl⟩; exact ⟨r, rfl⟩
      · rintro ⟨r, hr⟩
        injection hr with h1 h2
        exact ⟨h1.symm, r, h2⟩

theorem containsSub_iff (h n : List Char) :
    containsSub h n = true ↔ ∃ p r, h = p ++ n ++ r := by
  induction h with
  | nil =>
    simp only [containsSub, isPre_iff]
    constructor
    · rintro ⟨r, hr⟩; exact ⟨[], r, by simpa using hr⟩
    · rintro ⟨p, r, hr⟩
      have hp : p = [] := by
        cases p with
        | nil => rfl
        | cons a b => simp at hr
      subst hp
      exact ⟨r, by simpa using hr⟩
  | cons c t ih =>
    simp only [containsSub, Bool.or_eq_true, isPre_iff, ih]
    constructor
    · rintro (⟨r, hr⟩ | ⟨p, r, hr⟩)
      · exact ⟨[], r, by simpa using hr⟩
      · exact ⟨c :: p, r, by simp [hr]⟩
    · rintro ⟨p, r, hr⟩
      cases p with
      | nil => exact Or.inl ⟨r, by simpa using hr⟩
      | cons a p' =>
        injection hr with h1 h2
        exact Or.inr ⟨p', r, h2⟩

theorem endsWith_iff (p : List Char) (s : String) :
    endsWith p s = true ↔ ∃ pre, p = pre ++ s.toList := by
  simp only [endsWith, isPre_iff]
  constructor
  · rintro ⟨r, hr⟩
    refine ⟨r.reverse, ?_⟩
    have := congrArg List.reverse hr
    simpa using this
  · rintro ⟨pre, rfl⟩
    exact ⟨pre.reverse, by simp⟩

/-- Substring membership is implied by an explicit decomposition. -/
theorem containsSub_of_append (p n r : List Char) :
    containsSub (p ++ n ++ r) n = true :=
  (containsSub_iff _ _).2 ⟨p, r, rfl⟩

/-! ## Character classes of the JavaScript regexes -/

/-- The JavaScript `\s` class (whitespace). -/
def isJsWs (c : Char) : Bool :=
  c = ' ' || c = '\t' || c = '\n' || c = '\r' || c = '\u000b' || c = '\u000c' ||
  c = '\u00a0' || c = '\u1680' || ('\u2000' ≤ c && c ≤ '\u200a') ||
  c = '\u2028' || c = '\u2029' || c = '\u202f' || c = '\u205f' ||
  c = '\u3000' || c = '\ufeff'

/-- JavaScript line terminators (what `^`/`$` anchor to under the `m` flag). -/
def isLineTerm (c : Char) : Bool :=
  c = '\n' || c = '\r' || c = '\u2028' || c = '\u2029'

theorem ws_of_lineTerm {c : Char} (h : isLineTerm c = true) : isJsWs c = true := by
  simp only [isLineTerm, Bool.or_eq_true, decide_eq_true_eq] at h
  rcases h with ((h | h) | h) | h <;> subst h <;> decide

/-- The JavaScript `\d` class (ASCII digits). -/
def isDig (c : Char) : Bool := '0' ≤ c && c ≤ '9'

/-! ## Data model (type definitions of the source) -/

/-- An entry of the GitHub recursive tree listing (interface `GitHubFile`).
The TypeScript field `type` is called `ftype` here; the unused `url` field is
omitted. -/
structure GitHubFile where
  path : List Char
  ftype : String
  size : ℕ
deriving DecidableEq

/-- Interface `FileInsight`. -/
structure FileInsight where
  file : List Char
  analysis : List Char
  score : ℕ
  size : ℕ
  extension : List Char
deriving DecidableEq

/-! ## File classification (lines 172–230) -/

def codeExtensions : List String :=
  [".js", ".jsx", ".ts", ".tsx", ".py", ".java", ".cpp", ".c", ".cs", ".php",
   ".rb", ".go", ".rs", ".kt", ".swift", ".vue", ".svelte", ".dart", ".scala",
   ".clj", ".hs", ".ml", ".r", ".sql"]

def configExtensions : List String :=
  [".json", ".yml", ".yaml", ".toml", ".xml", ".ini", ".env", ".config"]

def docExtensions : List String := [".md", ".txt", ".rst"]

/-- The manifest-filename list of the `allFiles` filter (line 182). -/
def manifestNamesAll : List String :=
  ["package.json", "composer.json", "Dockerfile", "requirements.txt",
   "pom.xml", "build.gradle", "Cargo.toml", "go.mod"]

/-- The manifest-filename list of the `configFiles` filter (line 229);
it omits `Dockerfile`. -/
def manifestNamesConfig : List String :=
  ["package.json", "composer.json", "requirements.txt", "pom.xml",
   "build.gradle", "Cargo.toml", "go.mod"]

/-- The predicate of the `allFiles` filter (lines 176–185). -/
def relevantFile (f : GitHubFile) : Bool :=
  if f.ftype ≠ "blob" then false
  else if containsSub f.path "node_modules".toList ||
          containsSub f.path ".git".toList ||
          containsSub f.path "dist/".toList ||
          containsSub f.path "build/".toList then false
  else if f.size > 100000 then false
  else
    (codeExtensions ++ configExtensions ++ docExtensions).any
        (fun e => endsWith f.path e) ||
      manifestNamesAll.any (fun n => endsWith f.path n)

def allFilesOf (tree : List GitHubFile) : List GitHubFile :=
  tree.filter relevantFile

/-- The `codeFiles` predicate (line 226). -/
def isCodeFile (f : GitHubFile) : Bool :=
  codeExtensions.any (fun e => endsWith f.path e)

def codeFilesOf (tree : List GitHubFile) : List GitHubFile :=
  (allFilesOf tree).filter isCodeFile

/-- The `configFiles` predicate (lines 227–230). -/
def isConfigLike (f : GitHubFile) : Bool :=
  configExtensions.any (fun e => endsWith f.path e) ||
    manifestNamesConfig.any (fun n => endsWith f.path n)

def configFilesOf (tree : List GitHubFile) : List GitHubFile :=
  (allFilesOf tree).filter isConfigLike

/-- Final path component (the spec's "basename"). -/
def basename (p : List Char) : List Char :=
  (p.reverse.takeWhile (fun c => c ≠ '/')).reverse

/-- `hasDirSeg p d`: the path `p` contains `d` as a directory segment, i.e. a
slash-delimited component that is followed by a further component. -/
def hasDirSeg (p : List Char) (d : String) : Prop :=
  ∃ pre suf, p = pre ++ d.toList ++ '/' :: suf ∧
    (pre = [] ∨ ∃ pre2, pre = pre2 ++ ['/'])

/-- A dependency-cache, version-control or build-output directory segment. -/
def hasExcludedSegment (p : List Char) : Prop :=
  hasDirSeg p "node_modules" ∨ hasDirSeg p ".git" ∨
    hasDirSeg p "dist" ∨ hasDirSeg p "build"

/-- `file.path.split('.').pop() || 'unknown'` (line 322). -/
def extOf (p : List Char) : List Char :=
  let s := (p.reverse.takeWhile (fun c => c ≠ '.')).reverse
  if s.isEmpty then "unknown".toList else s

/-! ## Batching (lines 307–312): consecutive `slice(i, i + 10)` chunks. -/

def sliceBatches : List GitHubFile → List (List GitHubFile)
  | [] => []
  | a :: t => (a :: t).take 10 :: sliceBatches ((a :: t).drop 10)
termination_by l => l.length
decreasing_by simp [List.length_drop]; omega

/-! ## Response cleaning (`cleanAiResponse`, lines 83–95)

Each replacement pass of the source is one scanner.  The `m`-flagged patterns
are modelled with a beginning-of-line flag; a JavaScript global replace scans
the string left to right and resumes after each match, which is what the
recursive calls do. -/

/-- Pass 1, `replace(/\*/g, '')`. -/
def remStars (text : List Char) : List Char := text.filter (fun c => c != '*')

theorem length_dropWhile_le (p : Char → Bool) (l : List Char) :
    (l.dropWhile p).length ≤ l.length := by
  induction l with
  | nil => simp [List.dropWhile]
  | cons a t ih =>
    rw [List.dropWhile_cons]
    split
    · exact le_trans ih (by simp)
    · simp

/-- Pass 2, `replace(/#+\s*/g, '')`: each `#`-run together with the
whitespace run following it is removed (explicit fuel as in the other
scanners). -/
def remHashGo : ℕ → List Char → List Char
  | 0, l => l
  | _ + 1, [] => []
  | fuel + 1, c :: t =>
    if c = '#' then
      remHashGo fuel ((t.dropWhile (fun a => a = '#')).dropWhile isJsWs)
    else c :: remHashGo fuel t

def remHash (l : List Char) : List Char := remHashGo l.length l

/-- The match of `/^\s*[-*]\s+/` at the current position: returns the last
matched character (it decides whether the next position starts a line) and
the remainder. -/
def dashMatch (l : List Char) : Option (Char × List Char) :=
  match (l.dropWhile isJsWs).head? with
  | none => none
  | some d =>
    if d = '-' || d = '*' then
      match ((l.dropWhile isJsWs).tail.takeWhile isJsWs).getLast? with
      | none => none
      | some lc => some (lc, (l.dropWhile isJsWs).tail.dropWhile isJsWs)
    else none

theorem dashMatch_some_length {l : List Char} {lc : Char} {rest : List Char}
    (h : dashMatch l = some (lc, rest)) : rest.length < l.length := by
  unfold dashMatch at h
  rcases hD : (l.dropWhile isJsWs).head? with _ | d <;> simp only [hD] at h
  · exact absurd h (by simp)
  · split at h
    · rcases hG : ((l.dropWhile isJsWs).tail.takeWhile isJsWs).getLast? with _ | lc2 <;>
        simp only [hG] at h
      · exact absurd h (by simp)
      · injection h with h'
        have h2 : rest = (l.dropWhile isJsWs).tail.dropWhile isJsWs :=
          (congrArg Prod.snd h').symm
        have hne : l.dropWhile isJsWs ≠ [] := by
          intro h0; rw [h0] at hD; simp at hD
        have hlt : (l.dropWhile isJsWs).tail.length < (l.dropWhile isJsWs).length := by
          cases hE : l.dropWhile isJsWs with
          | nil => exact absurd hE hne
          | cons a b => simp
        have hle := length_dropWhile_le isJsWs l
        have hle2 := length_dropWhile_le isJsWs (l.dropWhile isJsWs).tail
        rw [h2]
        omega
    · exact absurd h (by simp)

theorem dashMatch_congr {l m : List Char}
    (h : l.dropWhile isJsWs = m.dropWhile isJsWs) : dashMatch l = dashMatch m := by
  unfold dashMatch
  rw [h]

theorem dashMatch_x_dash {x : Char} (hx : isJsWs x = false) (v : List Char) :
    dashMatch (x :: '-' :: v) = none := by
  unfold dashMatch
  rw [List.dropWhile_cons, if_neg (by simp [hx])]
  simp only [List.head?_cons, List.tail_cons]
  split
  · rw [List.takeWhile_cons, if_neg (by decide)]
    rfl
  · rfl

theorem dashMatch_decomp {l : List Char} {lc : Char} {rest : List Char}
    (h : dashMatch l = some (lc, rest)) :
    ∃ w d s, l = w ++ d :: (s ++ rest) ∧ (∀ c ∈ w, isJsWs c = true) ∧
      (d = '-' ∨ d = '*') ∧ (∀ c ∈ s, isJsWs c = true) := by
  unfold dashMatch at h
  rcases hD : (l.dropWhile isJsWs).head? with _ | d <;> simp only [hD] at h
  · exact absurd h (by simp)
  · split at h
    · rename_i hd
      rcases hG : ((l.dropWhile isJsWs).tail.takeWhile isJsWs).getLast? with
          _ | lc2 <;> simp only [hG] at h
      · exact absurd h (by simp)
      · injection h with h'
        have hrest : rest = (l.dropWhile isJsWs).tail.dropWhile isJsWs :=
          (congrArg Prod.snd h').symm
        cases hE : l.dropWhile isJsWs with
        | nil => rw [hE] at hD; exact absurd hD (by simp)
        | cons d0 t0 =>
          have hd0 : d0 = d := by
            rw [hE] at hD
            simpa using hD
          subst hd0
          refine ⟨l.takeWhile isJsWs, d0, t0.takeWhile isJsWs, ?_, ?_, ?_, ?_⟩
          · rw [hrest, hE]
            simp only [List.tail_cons]
            rw [List.takeWhile_append_dropWhile]
            conv_lhs => rw [← List.takeWhile_append_dropWhile (p := isJsWs) (l := l), hE]
          · intro c hc
            exact List.mem_takeWhile_imp hc
          · simpa using hd
          · intro c hc
            exact List.mem_takeWhile_imp hc
    · exact absurd h (by simp)

theorem dashMatch_rest_eq {l : List Char} {lc : Char} {rest : List Char}
    (h : dashMatch l = some (lc, rest)) :
    rest = (l.dropWhile isJsWs).tail.dropWhile isJsWs := by
  unfold dashMatch at h
  rcases hD : (l.dropWhile isJsWs).head? with _ | d <;> simp only [hD] at h
  · exact absurd h (by simp)
  · split at h
    · rcases hG : ((l.dropWhile isJsWs).tail.takeWhile isJsWs).getLast? with
          _ | lc2 <;> simp only [hG] at h
      · exact absurd h (by simp)
      · injection h with h'
        exact (congrArg Prod.snd h').symm
    · exact absurd h (by simp)

attribute [irreducible] dashMatch

/-- Pass 3, `replace(/^\s*[-*]\s+/gm, '')`, with explicit fuel (any fuel at
least the list length computes the scan; `remDash` supplies it). -/
def remDashGo : ℕ → Bool → List Char → List Char
  | 0, _, l => l
  | _ + 1, _, [] => []
  | fuel + 1, true, c :: t =>
    match dashMatch (c :: t) with
    | some (lc, rest) => remDashGo fuel (isLineTerm lc) rest
    | none => c :: remDashGo fuel (isLineTerm c) t
  | fuel + 1, false, c :: t => c :: remDashGo fuel (isLineTerm c) t

def remDash (bol : Bool) (l : List Char) : List Char := remDashGo l.length bol l

/-- Does position `k` of `l` satisfy the multiline `$` anchor? -/
def tailBd (l : List Char) (k : ℕ) : Bool :=
  match (l.drop k).head? with
  | none => true
  | some c => isLineTerm c

/-- Largest `k ≤ bound` with `k ≥ 1` and `tailBd l k`, else `0` — the greedy
match length of `\s*$` at the head of `l`. -/
def bestTrimAux (l : List Char) : ℕ → ℕ
  | 0 => 0
  | k + 1 => if tailBd l (k + 1) then k + 1 else bestTrimAux l k

def bestTrim (l : List Char) : ℕ := bestTrimAux l (l.takeWhile isJsWs).length

theorem bestTrimAux_le (l : List Char) (b : ℕ) : bestTrimAux l b ≤ b := by
  induction b with
  | zero => simp [bestTrimAux]
  | succ k ih =>
    rw [bestTrimAux]
    split
    · exact le_refl _
    · exact le_trans ih (by omega)

theorem length_takeWhile_le (p : Char → Bool) (l : List Char) :
    (l.takeWhile p).length ≤ l.length := by
  induction l with
  | nil => simp [List.takeWhile]
  | cons a t ih =>
    rw [List.takeWhile_cons]
    split
    · simpa using ih
    · simp

theorem bestTrim_le (l : List Char) :
    bestTrim l ≤ (l.takeWhile isJsWs).length :=
  bestTrimAux_le _ _

/-- The scrutinee of the line-start alternative of pass 4: the last character
of the maximal whitespace run (`none` when the run is empty). -/
def wsRunLast (l : List Char) : Option Char := (l.takeWhile isJsWs).getLast?

attribute [irreducible] bestTrim wsRunLast

/-- Pass 4, `replace(/^\s*|\s*$/gm, '')`, with explicit fuel.  At a line
start the first alternative matches the (possibly empty) whitespace run;
elsewhere the second alternative greedily matches whitespace up to a line
boundary. -/
def trimGo : ℕ → Bool → List Char → List Char
  | 0, _, l => l
  | _ + 1, _, [] => []
  | fuel + 1, true, c :: t =>
    match wsRunLast (c :: t) with
    | none => c :: trimGo fuel (isLineTerm c) t
    | some lc => trimGo fuel (isLineTerm lc) ((c :: t).dropWhile isJsWs)
  | fuel + 1, false, c :: t =>
    if bestTrim (c :: t) = 0 then c :: trimGo fuel (isLineTerm c) t
    else
      trimGo fuel
        (match ((c :: t).take (bestTrim (c :: t))).getLast? with
         | some c2 => isLineTerm c2
         | none => false) ((c :: t).drop (bestTrim (c :: t)))

def trimScan (bol : Bool) (l : List Char) : List Char := trimGo l.length bol l

/-- The match of `/^\s*(\d+)\.\s+/` at the current position: the captured
digits, the last matched character and the remainder. -/
def numMatch (l : List Char) : Option (List Char × Char × List Char) :=
  if ((l.dropWhile isJsWs).takeWhile isDig).isEmpty then none
  else
    match ((l.dropWhile isJsWs).dropWhile isDig).head? with
    | none => none
    | some e =>
      if e = '.' then
        match ((((l.dropWhile isJsWs).dropWhile isDig).tail).takeWhile
            isJsWs).getLast? with
        | none => none
        | some lc =>
          some ((l.dropWhile isJsWs).takeWhile isDig, lc,
            (((l.dropWhile isJsWs).dropWhile isDig).tail).dropWhile isJsWs)
      else none

theorem numMatch_some_length {l ds rest : List Char} {lc : Char}
    (h : numMatch l = some (ds, lc, rest)) : rest.length < l.length := by
  unfold numMatch at h
  split at h
  · exact absurd h (by simp)
  · rename_i hne
    rcases hD : ((l.dropWhile isJsWs).dropWhile isDig).head? with _ | e <;>
      simp only [hD] at h
    · exact absurd h (by simp)
    · split at h
      · rcases hG : ((((l.dropWhile isJsWs).dropWhile isDig).tail).takeWhile
            isJsWs).getLast? with _ | lc2 <;> simp only [hG] at h
        · exact absurd h (by simp)
        · injection h with h'
          have h2 : rest =
              (((l.dropWhile isJsWs).dropWhile isDig).tail).dropWhile isJsWs := by
            have := congrArg (fun q => q.2.2) h'
            exact this.symm
          have hne2 : (l.dropWhile isJsWs).dropWhile isDig ≠ [] := by
            intro h0; rw [h0] at hD; simp at hD
          have hlt : (((l.dropWhile isJsWs).dropWhile isDig).tail).length <
              ((l.dropWhile isJsWs).dropWhile isDig).length := by
            cases hE : (l.dropWhile isJsWs).dropWhile isDig with
            | nil => exact absurd hE hne2
            | cons a b => simp
          have hle := length_dropWhile_le isJsWs l
          have hle2 := length_dropWhile_le isDig (l.dropWhile isJsWs)
          have hle3 := length_dropWhile_le isJsWs
            (((l.dropWhile isJsWs).dropWhile isDig).tail)
          rw [h2]
          omega
      · exact absurd h (by simp)

theorem numMatch_decomp {l ds rest : List Char} {lc : Char}
    (h : numMatch l = some (ds, lc, rest)) :
    ∃ W S, l = W ++ ds ++ '.' :: (S ++ rest) ∧ (∀ c ∈ W, isJsWs c = true) ∧
      (∀ c ∈ ds, isDig c = true) ∧ (∀ c ∈ S, isJsWs c = true) := by
  unfold numMatch at h
  split at h
  · exact absurd h (by simp)
  · rename_i hne
    rcases hD : ((l.dropWhile isJsWs).dropWhile isDig).head? with _ | e <;>
      simp only [hD] at h
    · exact absurd h (by simp)
    · split at h
      · rename_i he
        subst he
        rcases hG : ((((l.dropWhile isJsWs).dropWhile isDig).tail).takeWhile
            isJsWs).getLast? with _ | lc2 <;> simp only [hG] at h
        · exact absurd h (by simp)
        · injection h with h'
          have hds : ds = (l.dropWhile isJsWs).takeWhile isDig :=
            (congrArg (fun q => q.1) h').symm
          have hrest : rest =
              (((l.dropWhile isJsWs).dropWhile isDig).tail).dropWhile isJsWs := by
            have := congrArg (fun q => q.2.2) h'
            exact this.symm
          refine ⟨l.takeWhile isJsWs,
            (((l.dropWhile isJsWs).dropWhile isDig).tail).takeWhile isJsWs,
            ?_, ?_, ?_, ?_⟩
          · cases hE : (l.dropWhile isJsWs).dropWhile isDig with
            | nil => rw [hE] at hD; exact absurd hD (by simp)
            | cons e0 t0 =>
              have he0 : e0 = '.' := by
                rw [hE] at hD
                simpa using hD
              subst he0
              rw [hds, hrest, hE]
              simp only [List.tail_cons]
              rw [List.takeWhile_append_dropWhile, List.append_assoc]
              conv_lhs => rw [← List.takeWhile_append_dropWhile (p := isJsWs)
                (l := l)]
              congr 1
              conv_lhs => rw [← List.takeWhile_append_dropWhile (p := isDig)
                (l := l.dropWhile isJsWs), hE]
          · intro c hc
            exact List.mem_takeWhile_imp hc
          · intro c hc
            rw [hds] at hc
            exact List.mem_takeWhile_imp hc
          · intro c hc
            exact List.mem_takeWhile_imp hc
      · exact absurd h (by simp)

attribute [irreducible] numMatch

/-- Pass 5, `replace(/^\s*(\d+)\.\s+/gm, '$1. ')`, with explicit fuel. -/
def renumGo : ℕ → Bool → List Char → List Char
  | 0, _, l => l
  | _ + 1, _, [] => []
  | fuel + 1, true, c :: t =>
    match numMatch (c :: t) with
    | some (ds, lc, rest) =>
      ds ++ '.' :: ' ' :: renumGo fuel (isLineTerm lc) rest
    | none => c :: renumGo fuel (isLineTerm c) t
  | fuel + 1, false, c :: t => c :: renumGo fuel (isLineTerm c) t

def renumScan (bol : Bool) (l : List Char) : List Char := renumGo l.length bol l

/-- `cleanAiResponse` (lines 83–95): the five replacement passes in order. -/
def cleanAiResponse (text : List Char) : List Char :=
  renumScan true (trimScan true (remDash true (remHash (remStars text))))


/-! ## Response validation (`validateResponseFormat`, lines 98–104) -/

def scoreMarker : List Char := "SCORE:".toList

def recsMarker : List Char := "TOP 5 ACTIONABLE RECOMMENDATIONS:".toList

/-- The class `[*#_\-]` of the forbidden-character test. -/
def forbiddenChar (c : Char) : Bool :=
  c = '*' || c = '#' || c = '_' || c = '-'

def validateResponseFormat (text : List Char) : Bool :=
  if text.any forbiddenChar then false
  else if !containsSub text scoreMarker || !containsSub text recsMarker then false
  else true

/-! ## Score extraction (lines 436–437): `/SCORE:\s*(\d+)/i` then
`Math.min(10, Math.max(1, parseInt(...)))`, default 7. -/

def toLow (c : Char) : Char :=
  if 'A' ≤ c && c ≤ 'Z' then Char.ofNat (c.toNat + 32) else c

def digitsToNat (ds : List Char) : ℕ :=
  ds.foldl (fun a c => a * 10 + (c.toNat - 48)) 0

/-- Match of `/SCORE:\s*(\d+)/i` anchored at the head of `l`: the marker
case-insensitively, then the whitespace run, then at least one digit. -/
def matchScoreAt (l : List Char) : Option ℕ :=
  if (l.take 6).map toLow = "score:".toList then
    match ((l.drop 6).dropWhile isJsWs).takeWhile isDig with
    | [] => none
    | ds => some (digitsToNat ds)
  else none

/-- Leftmost match: the scan of the unanchored regex. -/
def findScore : List Char → Option ℕ
  | [] => none
  | c :: t =>
    match matchScoreAt (c :: t) with
    | some n => some n
    | none => findScore t

def extractScore (analysis : List Char) : ℕ :=
  match findScore analysis with
  | some n => min 10 (max 1 n)
  | none => 7

/-! ## The per-file review retry loop (lines 393–433) -/

/-- The external world seen by one code file's task: the content fetch and
the reviewer's raw text per attempt (`none` is a transport-level failure). -/
structure FileWorld where
  content : Option (List Char)
  responses : ℕ → Option (List Char)

/-- `while (attempts < 3 && !validResponse)`: each iteration calls the
reviewer (a transport failure returns `null` at once), cleans and validates;
the pair is the valid analysis (if any) and the final value of `attempts`. -/
def attemptLoop (responses : ℕ → Option (List Char)) (attempts : ℕ) :
    Option (List Char) × ℕ :=
  if attempts < 3 then
    match responses attempts with
    | none => (none, attempts)
    | some raw =>
      let analysis := cleanAiResponse raw
      if validateResponseFormat analysis then (some analysis, attempts + 1)
      else attemptLoop responses (attempts + 1)
  else (none, attempts)
termination_by 3 - attempts

/-- One code file's task (lines 312–467): fetch content, run the retry loop,
build the `FileInsight`.  `groqKey` is the presence of `GROQ_API_KEY`. -/
def processCodeFile (groqKey : Bool) (w : FileWorld) (f : GitHubFile) :
    Option FileInsight :=
  match w.content with
  | none => none
  | some _ =>
    if groqKey then
      match (attemptLoop w.responses 0).1 with
      | none => none
      | some analysis =>
        some ⟨f.path, analysis, extractScore analysis, f.size, extOf f.path⟩
    else none

/-! ## Score aggregation (lines 474–485)

JavaScript `Math.round` rounds half away from zero upward, which on ℚ is
Mathlib's `round` (`⌊x + 1/2⌋`); the literals `0.5`, `0.2`, `0.3` are the
exact rationals. -/

def finalScore (insights : List FileInsight)
    (archCount fwCount secCount : ℕ) : ℤ :=
  if 0 < insights.length then
    max 1 (min 10 (round (
      (insights.map (fun i => (i.score : ℚ))).sum / (insights.length : ℚ) +
      (if 0 < archCount then min 2 ((archCount : ℚ) * (1 / 2)) else 0) +
      (if 0 < fwCount then min 1 ((fwCount : ℚ) * (1 / 5)) else 0) -
      (if 0 < secCount then min 2 ((secCount : ℚ) * (3 / 10)) else 0))))
  else 1

/-- The aggregate-score formula as the specification words it (§4.6),
written independently of the source to compare against `finalScore`. -/
def specAggregateScore (insights : List FileInsight)
    (archCount fwCount secCount : ℕ) : ℤ :=
  if insights.length = 0 then 1
  else
    max 1 (min 10 (round (
      (insights.map (fun i => (i.score : ℚ))).sum / (insights.length : ℚ) +
      min 2 ((1 / 2) * (archCount : ℚ)) +
      min 1 ((1 / 5) * (fwCount : ℚ)) -
      min 2 ((3 / 10) * (secCount : ℚ)))))

theorem guarded_bonus_eq (cap q : ℚ) (hcap : 0 ≤ cap) (n : ℕ) :
    (if 0 < n then min cap ((n : ℚ) * q) else 0) = min cap (q * (n : ℚ)) := by
  rcases Nat.eq_zero_or_pos n with h | h
  · subst h
    simp [min_eq_right hcap]
  · rw [if_pos h, mul_comm]

theorem finalScore_bounds (insights : List FileInsight)
    (archCount fwCount secCount : ℕ) :
    1 ≤ finalScore insights archCount fwCount secCount ∧
      finalScore insights archCount fwCount secCount ≤ 10 := by
  unfold finalScore
  split
  · constructor
    · exact le_max_left _ _
    · exact max_le (by norm_num) (min_le_left _ _)
  · exact ⟨le_refl _, by norm_num⟩

/-- C1: the aggregate score is the average of the per-file scores plus
`min(2, 0.5·|architecture patterns|)` plus `min(1, 0.2·|frameworks|)` minus
`min(2, 0.3·#{files with non-empty security text})`, rounded and clamped to
[1,10]; `1` when the insight list is empty; and an average of 8.0 with two
architecture patterns, one framework and no security issues yields 9. -/
theorem C1_aggregate_score :
    (∀ (insights : List FileInsight) (archCount fwCount secCount : ℕ),
      finalScore insights archCount fwCount secCount =
        specAggregateScore insights archCount fwCount secCount) ∧
    finalScore [⟨"a.ts".toList, [], 8, 1, "ts".toList⟩,
                ⟨"b.ts".toList, [], 8, 1, "ts".toList⟩] 2 1 0 = 9 := by
  constructor
  · intro insights a f s
    unfold finalScore specAggregateScore
    rcases Nat.eq_zero_or_pos insights.length with h | h
    · simp [h]
    · rw [if_pos h, if_neg (show ¬insights.length = 0 from by omega)]
      rw [guarded_bonus_eq 2 (1 / 2) (by norm_num) a,
          guarded_bonus_eq 1 (1 / 5) (by norm_num) f,
          guarded_bonus_eq 2 (3 / 10) (by norm_num) s]
  · unfold finalScore
    norm_num [round_eq, min_def, max_def]

/-! ## C9: batching -/

theorem sliceBatches_flatten (l : List GitHubFile) :
    (sliceBatches l).flatten = l := by
  induction l using sliceBatches.induct with
  | case1 => rw [sliceBatches]; rfl
  | case2 a t ih =>
    rw [sliceBatches, List.flatten_cons, ih]
    exact List.take_append_drop 10 (a :: t)

theorem sliceBatches_length (l : List GitHubFile) :
    (sliceBatches l).length = (l.length + 9) / 10 := by
  induction l using sliceBatches.induct with
  | case1 => simp [sliceBatches]
  | case2 a t ih =>
    rw [sliceBatches]
    simp only [List.length_cons, ih, List.length_drop]
    omega

theorem sliceBatches_small {l : List GitHubFile} (h1 : l ≠ [])
    (h2 : l.length ≤ 10) : sliceBatches l = [l] := by
  cases l with
  | nil => exact absurd rfl h1
  | cons a t =>
    rw [sliceBatches]
    rw [List.take_of_length_le h2, List.drop_eq_nil_of_le h2, sliceBatches]

theorem sliceBatches_mem (l : List GitHubFile) :
    ∀ b ∈ sliceBatches l, b ≠ [] ∧ b.length ≤ 10 := by
  induction l using sliceBatches.induct with
  | case1 => simp [sliceBatches]
  | case2 a t ih =>
    intro b hb
    rw [sliceBatches] at hb
    rcases List.mem_cons.1 hb with h | h
    · subst h
      refine ⟨by simp, ?_⟩
      simpa using List.length_take_le 10 (a :: t)
    · exact ih b h

/-- C9: code files are partitioned in order into consecutive batches of 10
(the last possibly smaller); there are exactly `⌈n/10⌉` batches, and a list
of 12 files yields 2 batches of sizes 10 and 2. -/
theorem C9_batching (l : List GitHubFile) :
    (sliceBatches l).flatten = l ∧
    (∀ b ∈ sliceBatches l, b ≠ [] ∧ b.length ≤ 10) ∧
    (sliceBatches l).length = (l.length + 9) / 10 ∧
    (l.length = 12 → (sliceBatches l).map List.length = [10, 2]) := by
  refine ⟨sliceBatches_flatten l, sliceBatches_mem l, sliceBatches_length l, ?_⟩
  intro h12
  cases l with
  | nil => simp at h12
  | cons a t =>
    rw [sliceBatches]
    have hd : ((a :: t).drop 10).length = 2 := by
      simp only [List.length_drop]
      omega
    rw [sliceBatches_small (by rw [← List.length_pos, hd]; norm_num)
      (by rw [hd]; norm_num)]
    simp only [List.map_cons, List.map_nil, List.length_take]
    rw [hd, h12]
    norm_num

theorem C9_batching_witness :
    (sliceBatches (List.replicate 12 ⟨"a.ts".toList, "blob", 1⟩)).map
        List.length = [10, 2] :=
  (C9_batching (List.replicate 12 ⟨"a.ts".toList, "blob", 1⟩)).2.2.2
    (by simp)

/-! ## C3: the retry loop is bounded -/

theorem attemptLoop_snd_le (responses : ℕ → Option (List Char)) :
    ∀ k a, 3 - a ≤ k → a ≤ 3 → (attemptLoop responses a).2 ≤ 3 := by
  intro k
  induction k with
  | zero =>
    intro a hk ha
    have h3 : ¬a < 3 := by omega
    rw [attemptLoop, if_neg h3]
    exact ha
  | succ k ih =>
    intro a hk ha
    rw [attemptLoop]
    split
    · rename_i hlt
      cases responses a with
      | none => exact ha
      | some raw =>
        simp only
        split
        · omega
        · exact ih (a + 1) (by omega) (by omega)
    · exact ha

theorem attemptLoop_none_of_invalid (responses : ℕ → Option (List Char))
    (hinv : ∀ i raw, i < 3 → responses i = some raw →
      validateResponseFormat (cleanAiResponse raw) = false) :
    ∀ k a, 3 - a ≤ k → (attemptLoop responses a).1 = none := by
  intro k
  induction k with
  | zero =>
    intro a hk
    rw [attemptLoop, if_neg (by omega)]
  | succ k ih =>
    intro a hk
    rw [attemptLoop]
    split
    · rename_i hlt
      cases hr : responses a with
      | none => rfl
      | some raw =>
        simp only
        rw [if_neg (by simp [hinv a raw hlt hr])]
        exact ih (a + 1) (by omega)
    · rfl

/-- C3: the review retry loop makes at most 3 attempts, and when every
returned response fails validation the file is abandoned: the loop yields no
analysis and the file contributes no `FileInsight`. -/
theorem C3_retry_bound (w : FileWorld) (groqKey : Bool) (f : GitHubFile) :
    (attemptLoop w.responses 0).2 ≤ 3 ∧
    ((∀ i raw, i < 3 → w.responses i = some raw →
        validateResponseFormat (cleanAiResponse raw) = false) →
      (attemptLoop w.responses 0).1 = none ∧
        processCodeFile groqKey w f = none) := by
  refine ⟨attemptLoop_snd_le w.responses 3 0 (by omega) (by omega), ?_⟩
  intro hinv
  have h1 := attemptLoop_none_of_invalid w.responses hinv 3 0 (by omega)
  refine ⟨h1, ?_⟩
  unfold processCodeFile
  cases w.content with
  | none => rfl
  | some c =>
    simp only [h1]
    cases groqKey <;> simp

theorem C3_retry_bound_witness :
    (attemptLoop (fun _ => some []) 0).2 ≤ 3 ∧
    processCodeFile true ⟨some [], fun _ => some []⟩
      ⟨"a.ts".toList, "blob", 1⟩ = none := by
  have h := C3_retry_bound ⟨some [], fun _ => some []⟩ true
    ⟨"a.ts".toList, "blob", 1⟩
  refine ⟨h.1, ?_⟩
  refine (h.2 ?_).2
  intro i raw _ hr
  injection hr with hr
  subst hr
  have h0 : cleanAiResponse [] = [] := rfl
  rw [h0]
  decide

/-! ## C5: classifier exclusions;  C8: manifest tagging -/

theorem dirSeg_containsSub_name {p : List Char} {d : String}
    (h : hasDirSeg p d) : containsSub p d.toList = true := by
  obtain ⟨pre, suf, rfl, -⟩ := h
  have he : pre ++ d.toList ++ '/' :: suf = pre ++ d.toList ++ ('/' :: suf) := by
    simp
  rw [he]
  exact containsSub_of_append _ _ _

theorem dirSeg_containsSub_slash {p : List Char} {d : String}
    (h : hasDirSeg p d) : containsSub p (d.toList ++ ['/']) = true := by
  obtain ⟨pre, suf, rfl, -⟩ := h
  have he : pre ++ d.toList ++ '/' :: suf = pre ++ (d.toList ++ ['/']) ++ suf := by
    simp
  rw [he]
  exact containsSub_of_append _ _ _

theorem relevantFile_shape (f : GitHubFile) (hrel : relevantFile f = true) :
    f.ftype = "blob" ∧ f.size ≤ 100000 ∧ ¬hasExcludedSegment f.path := by
  rw [relevantFile] at hrel
  split at hrel
  · exact absurd hrel (by simp)
  · rename_i h1
    split at hrel
    · exact absurd hrel (by simp)
    · rename_i h2
      split at hrel
      · rename_i h3
        exact absurd hrel (by simp)
      · rename_i h3
        refine ⟨by simpa using h1, by omega, ?_⟩
        intro hex
        apply h2
        rcases hex with hx | hx | hx | hx
        · rw [dirSeg_containsSub_name hx]
          simp
        · rw [dirSeg_containsSub_name hx]
          simp
        · have hc := dirSeg_containsSub_slash hx
          rw [show ("dist".toList ++ ['/']) = "dist/".toList from by decide] at hc
          rw [hc]
          simp
        · have hc := dirSeg_containsSub_slash hx
          rw [show ("build".toList ++ ['/']) = "build/".toList from by decide] at hc
          rw [hc]
          simp

/-- C5: nothing tagged code or manifest is a non-blob entry, lies under a
dependency-cache, version-control, or build-output directory segment, or
exceeds 100 000 bytes; and classification is deterministic in its input. -/
theorem C5_classifier_exclusions :
    (∀ (L : List GitHubFile) (f : GitHubFile),
      (f ∈ codeFilesOf L ∨ f ∈ configFilesOf L) →
        f.ftype = "blob" ∧ f.size ≤ 100000 ∧ ¬hasExcludedSegment f.path) ∧
    (∀ L1 L2 : List GitHubFile, L1 = L2 →
      codeFilesOf L1 = codeFilesOf L2 ∧ configFilesOf L1 = configFilesOf L2) := by
  constructor
  · intro L f hf
    have hrel : relevantFile f = true := by
      rcases hf with h | h
      · exact (List.mem_filter.1 (List.mem_filter.1 h).1).2
      · exact (List.mem_filter.1 (List.mem_filter.1 h).1).2
    exact relevantFile_shape f hrel
  · intro L1 L2 hL
    subst hL
    exact ⟨rfl, rfl⟩

def wCodeFile : GitHubFile := ⟨"src/App.tsx".toList, "blob", 10⟩

theorem C5_classifier_exclusions_witness :
    wCodeFile.ftype = "blob" ∧ wCodeFile.size ≤ 100000 ∧
      ¬hasExcludedSegment wCodeFile.path :=
  C5_classifier_exclusions.1 [wCodeFile] wCodeFile (Or.inl (by decide))

def cexManifestFile : GitHubFile := ⟨"xrequirements.txt".toList, "blob", 10⟩

/-- C8 counterexample: the classifier tags `xrequirements.txt` as manifest
(`configFiles` uses `endsWith`), although its basename equals none of the
manifest filenames and its extension is not in the config-extension set —
so "manifest exactly when extension matches or basename equals" is false. -/
theorem C8_basename_counterexample :
    cexManifestFile ∈ configFilesOf [cexManifestFile] ∧
    manifestNamesConfig.all
      (fun n => basename cexManifestFile.path != n.toList) = true ∧
    configExtensions.all
      (fun e => !endsWith cexManifestFile.path e) = true := by
  refine ⟨?_, by decide, by decide⟩
  decide

/-- C8 amended: a file (among the relevant ones) is tagged manifest exactly
when its extension is in the fixed config-extension set or its path ends
with one of the fixed manifest filenames as a string suffix — so a longer
basename ending in such a name is also tagged manifest. -/
theorem C8_manifest_suffix (L : List GitHubFile) (f : GitHubFile) :
    f ∈ configFilesOf L ↔
      f ∈ allFilesOf L ∧
        ((∃ e ∈ configExtensions, ∃ pre, f.path = pre ++ e.toList) ∨
         (∃ n ∈ manifestNamesConfig, ∃ pre, f.path = pre ++ n.toList)) := by
  rw [configFilesOf, List.mem_filter]
  refine and_congr_right fun _ => ?_
  rw [isConfigLike]
  simp only [Bool.or_eq_true, List.any_eq_true, endsWith_iff]

/-! ## C4: score extraction -/

theorem findScore_eq_none_iff (t : List Char) :
    findScore t = none ↔ ∀ i, matchScoreAt (t.drop i) = none := by
  induction t with
  | nil =>
    simp only [findScore, List.drop_nil]
    constructor
    · intro _ i
      decide
    · intro _
      trivial
  | cons c t ih =>
    rw [findScore]
    rcases hM : matchScoreAt (c :: t) with _ | m <;> simp only [hM]
    · rw [ih]
      constructor
      · intro h i
        cases i with
        | zero => simpa using hM
        | succ i' => simpa using h i'
      · intro h i
        simpa using h (i + 1)
    · constructor
      · intro h
        exact absurd h (by simp)
      · intro h
        have h0 := h 0
        rw [List.drop_zero, hM] at h0
        exact absurd h0 (by simp)

theorem findScore_eq_some_iff (t : List Char) (n : ℕ) :
    findScore t = some n ↔
      ∃ i, matchScoreAt (t.drop i) = some n ∧
        ∀ j, j < i → matchScoreAt (t.drop j) = none := by
  induction t with
  | nil =>
    simp only [findScore]
    constructor
    · intro h
      exact absurd h (by simp)
    · rintro ⟨i, hi, -⟩
      rw [List.drop_nil, show matchScoreAt [] = none from by decide] at hi
      exact absurd hi (by simp)
  | cons c t ih =>
    rw [findScore]
    rcases hM : matchScoreAt (c :: t) with _ | m <;> simp only [hM]
    · rw [ih]
      constructor
      · rintro ⟨i, hi, hj⟩
        refine ⟨i + 1, by simpa using hi, ?_⟩
        intro j hj2
        cases j with
        | zero => simpa using hM
        | succ j' => simpa using hj j' (by omega)
      · rintro ⟨i, hi, hj⟩
        cases i with
        | zero =>
          rw [List.drop_zero, hM] at hi
          exact absurd hi (by simp)
        | succ i' =>
          refine ⟨i', by simpa using hi, ?_⟩
          intro j hj2
          simpa using hj (j + 1) (by omega)
    · constructor
      · intro h
        injection h with h
        subst h
        refine ⟨0, by simpa using hM, ?_⟩
        intro j hj
        exact absurd hj (Nat.not_lt_zero j)
      · rintro ⟨i, hi, hj⟩
        cases i with
        | zero =>
          rw [List.drop_zero, hM] at hi
          exact hi
        | succ i' =>
          have h0 := hj 0 (by omega)
          rw [List.drop_zero, hM] at h0
          exact absurd h0 (by simp)

theorem matchScoreAt_marker {l : List Char} {n : ℕ}
    (h : matchScoreAt l = some n) :
    (l.take 6).map toLow = "score:".toList := by
  unfold matchScoreAt at h
  split at h
  · assumption
  · exact absurd h (by simp)

/-- C4: score extraction takes the integer following the leftmost
(case-insensitive) `SCORE:` marker that is followed by a parseable integer,
clamped to [1,10]; it returns the default 7 when no position matches — in
particular whenever the marker is absent; the result is always in [1,10]. -/
theorem C4_score_extraction (t : List Char) :
    ((∀ i, matchScoreAt (t.drop i) = none) → extractScore t = 7) ∧
    (∀ i n, matchScoreAt (t.drop i) = some n →
      (∀ j, j < i → matchScoreAt (t.drop j) = none) →
      extractScore t = min 10 (max 1 n)) ∧
    (containsSub (t.map toLow) "score:".toList = false → extractScore t = 7) ∧
    1 ≤ extractScore t ∧ extractScore t ≤ 10 := by
  refine ⟨?_, ?_, ?_, ?_⟩
  · intro h
    rw [extractScore, (findScore_eq_none_iff t).2 h]
  · intro i n hi hj
    rw [extractScore, (findScore_eq_some_iff t n).2 ⟨i, hi, hj⟩]
  · intro hcs
    have hall : ∀ i, matchScoreAt (t.drop i) = none := by
      intro i
      rcases hm : matchScoreAt (t.drop i) with _ | m
      · rfl
      · exfalso
        have hmark := matchScoreAt_marker hm
        have heq : (t.take i).map toLow ++ (((t.drop i).take 6).map toLow ++
            ((t.drop i).drop 6).map toLow) = t.map toLow := by
          rw [← List.map_append, List.take_append_drop, ← List.map_append,
            List.take_append_drop]
        rw [hmark] at heq
        have hcs2 := containsSub_of_append ((t.take i).map toLow)
          "score:".toList (((t.drop i).drop 6).map toLow)
        rw [List.append_assoc, heq] at hcs2
        rw [hcs2] at hcs
        exact absurd hcs (by simp)
    rw [extractScore, (findScore_eq_none_iff t).2 hall]
  · cases hF : findScore t with
    | none =>
      rw [extractScore, hF]
      norm_num
    | some n =>
      rw [extractScore, hF]
      exact ⟨le_min (by norm_num) (le_max_left 1 n), min_le_left _ _⟩

theorem C4_score_extraction_witness :
    extractScore "SCORE: 8".toList = min 10 (max 1 8) :=
  (C4_score_extraction "SCORE: 8".toList).2.1 0 8 (by decide)
    (fun j hj => absurd hj (Nat.not_lt_zero j))

/-! ## C10: cleaning and validation lemmas -/

theorem mem_dropWhile_of_mem {p : Char → Bool} {c : Char} (hc : p c = false)
    {l : List Char} (h : c ∈ l) : c ∈ l.dropWhile p := by
  have h2 : c ∈ l.takeWhile p ++ l.dropWhile p := by
    rw [List.takeWhile_append_dropWhile]
    exact h
  rcases List.mem_append.1 h2 with h1 | h1
  · have := List.mem_takeWhile_imp h1
    rw [hc] at this
    cases this
  · exact h1

theorem dropWhile_append_nil {p : Char → Bool} {u : List Char}
    (h : u.dropWhile p = []) (v : List Char) :
    (u ++ v).dropWhile p = v.dropWhile p := by
  induction u with
  | nil => rfl
  | cons a u ih =>
    rw [List.dropWhile_cons] at h
    rw [List.cons_append, List.dropWhile_cons]
    split
    · rename_i hp
      rw [if_pos hp] at h
      exact ih h
    · rename_i hp
      rw [if_neg hp] at h
      exact absurd h (by simp)

theorem dropWhile_append_cons {p : Char → Bool} {u a w : _}
    (h : u.dropWhile p = a :: w) (v : List Char) :
    (u ++ v).dropWhile p = a :: (w ++ v) := by
  induction u with
  | nil => exact absurd h (by simp)
  | cons b u ih =>
    rw [List.dropWhile_cons] at h
    rw [List.cons_append, List.dropWhile_cons]
    split
    · rename_i hp
      rw [if_pos hp] at h
      exact ih h
    · rename_i hp
      rw [if_neg hp] at h
      injection h with h1 h2
      subst h1
      subst h2
      rfl

theorem dropWhile_append_keep {p : Char → Bool} {x : Char}
    (hx : p x = false) (u v : List Char) :
    ∃ u2, (u ++ x :: v).dropWhile p = u2 ++ x :: v := by
  induction u with
  | nil =>
    refine ⟨[], ?_⟩
    rw [List.nil_append, List.dropWhile_cons, if_neg (by simp [hx])]
  | cons a u ih =>
    rw [List.cons_append, List.dropWhile_cons]
    split
    · exact ih
    · exact ⟨a :: u, by simp⟩

/-! ### Pass 1 (`remStars`) -/

theorem star_not_mem_remStars (t : List Char) : '*' ∉ remStars t := by
  simp [remStars]

theorem mem_remStars {c : Char} {t : List Char} :
    c ∈ remStars t ↔ c ∈ t ∧ c ≠ '*' := by
  simp [remStars]

theorem remStars_append (u v : List Char) :
    remStars (u ++ v) = remStars u ++ remStars v := by
  simp [remStars]

/-! ### Pass 2 (`remHashGo`) -/

theorem remHashGo_subset (fuel : ℕ) :
    ∀ (l : List Char) (c : Char), c ∈ remHashGo fuel l → c ∈ l := by
  induction fuel with
  | zero => intro l c h; exact h
  | succ fuel ih =>
    intro l c h
    cases l with
    | nil => exact h
    | cons a t =>
      rw [remHashGo] at h
      split at h
      · have h2 := ih _ _ h
        have h3 := (List.dropWhile_sublist (l := t.dropWhile fun a => a = '#')
          (p := isJsWs)).mem h2
        have h4 := (List.dropWhile_sublist (l := t)
          (p := fun a => a = '#')).mem h3
        exact List.mem_cons_of_mem a h4
      · rcases List.mem_cons.1 h with h2 | h2
        · exact h2 ▸ List.mem_cons_self a t
        · exact List.mem_cons_of_mem a (ih _ _ h2)

theorem hash_not_mem_remHashGo (fuel : ℕ) :
    ∀ l : List Char, l.length ≤ fuel → '#' ∉ remHashGo fuel l := by
  induction fuel with
  | zero =>
    intro l hl
    have hl0 : l = [] := List.length_eq_zero.1 (by omega)
    subst hl0
    simp [remHashGo]
  | succ fuel ih =>
    intro l hl
    cases l with
    | nil => simp [remHashGo]
    | cons a t =>
      rw [remHashGo]
      split
      · refine ih _ ?_
        have h1 := length_dropWhile_le (fun a => a = '#') t
        have h2 := length_dropWhile_le isJsWs (t.dropWhile fun a => a = '#')
        simp only [List.length_cons] at hl
        omega
      · rename_i ha
        intro hmem
        rcases List.mem_cons.1 hmem with h2 | h2
        · exact ha h2.symm
        · exact ih t (by simp at hl; omega) h2

theorem remHashGo_pres {c : Char} (hc1 : isJsWs c = false) (hc2 : c ≠ '#')
    (fuel : ℕ) : ∀ l : List Char, c ∈ l → c ∈ remHashGo fuel l := by
  induction fuel with
  | zero => intro l h; exact h
  | succ fuel ih =>
    intro l h
    cases l with
    | nil => exact h
    | cons a t =>
      rw [remHashGo]
      split
      · rename_i ha
        subst ha
        have h2 : c ∈ t := by
          rcases List.mem_cons.1 h with h3 | h3
          · exact absurd h3 hc2
          · exact h3
        have h3 : c ∈ t.dropWhile fun a => a = '#' :=
          mem_dropWhile_of_mem (by simp [hc2]) h2
        exact ih _ (mem_dropWhile_of_mem hc1 h3)
      · rcases List.mem_cons.1 h with h2 | h2
        · subst h2
          exact List.mem_cons_self _ _
        · exact List.mem_cons_of_mem a (ih t h2)

theorem remHashGo_congr : ∀ f1 f2 l, l.length ≤ f1 → l.length ≤ f2 →
    remHashGo f1 l = remHashGo f2 l := by
  intro f1
  induction f1 with
  | zero =>
    intro f2 l h1 h2
    have hl0 : l = [] := List.length_eq_zero.1 (by omega)
    subst hl0
    cases f2 <;> simp [remHashGo]
  | succ f1 ih =>
    intro f2 l h1 h2
    cases l with
    | nil => cases f2 <;> simp [remHashGo]
    | cons a t =>
      cases f2 with
      | zero => simp at h2
      | succ f2 =>
        rw [remHashGo, remHashGo]
        have hd : ((t.dropWhile fun a => a = '#').dropWhile isJsWs).length ≤
            t.length := by
          have u1 := length_dropWhile_le (fun a => a = '#') t
          have u2 := length_dropWhile_le isJsWs (t.dropWhile fun a => a = '#')
          omega
        simp only [List.length_cons] at h1 h2
        split
        · exact ih f2 _ (by omega) (by omega)
        · rw [ih f2 t (by omega) (by omega)]

theorem remHash_adj {x : Char} (hx1 : isJsWs x = false) (hx2 : x ≠ '#') :
    ∀ fuel (u v : List Char), (u ++ x :: v).length ≤ fuel →
      ∃ u2, remHashGo fuel (u ++ x :: v) = u2 ++ x :: remHash v := by
  intro fuel
  induction fuel with
  | zero =>
    intro u v h
    simp at h
  | succ fuel ih =>
    intro u v h
    cases u with
    | nil =>
      refine ⟨[], ?_⟩
      rw [List.nil_append, remHashGo, if_neg hx2, remHash]
      rw [remHashGo_congr fuel v.length v (by simpa using h) (le_refl _)]
      rfl
    | cons a u' =>
      rw [List.cons_append, remHashGo]
      simp only [List.length_cons, List.length_append] at h
      split
      · rename_i ha
        obtain ⟨ua, hua⟩ := dropWhile_append_keep
          (p := fun a => a = '#') (x := x) (by simp [hx2]) u' v
        rw [hua]
        obtain ⟨ub, hub⟩ := dropWhile_append_keep (p := isJsWs) hx1 ua v
        rw [hub]
        refine ih ub v ?_
        have l1 : (ua ++ x :: v).length ≤ (u' ++ x :: v).length := by
          rw [← hua]
          exact length_dropWhile_le _ _
        have l2 : (ub ++ x :: v).length ≤ (ua ++ x :: v).length := by
          rw [← hub]
          exact length_dropWhile_le _ _
        simp only [List.length_append, List.length_cons] at l1 l2 ⊢
        omega
      · obtain ⟨u2, hu2⟩ := ih u' v (by simp; omega)
        exact ⟨a :: u2, by rw [hu2]; rfl⟩

/-! ### Pass 3 (`remDashGo`) -/

theorem dash_head_not_bol : ∀ (fuel : ℕ) (v : List Char),
    '-' ∈ remDashGo fuel false ('-' :: v) := by
  intro fuel v
  cases fuel with
  | zero => exact List.mem_cons_self _ _
  | succ fuel =>
    rw [remDashGo]
    exact List.mem_cons_self _ _

theorem remDashGo_subset (fuel : ℕ) :
    ∀ (b : Bool) (l : List Char) (c : Char), c ∈ remDashGo fuel b l → c ∈ l := by
  induction fuel with
  | zero => intro b l c h; exact h
  | succ fuel ih =>
    intro b l c h
    cases l with
    | nil => cases b <;> exact h
    | cons a t =>
      cases b with
      | false =>
        rw [remDashGo] at h
        rcases List.mem_cons.1 h with h2 | h2
        · subst h2
          exact List.mem_cons_self _ _
        · exact List.mem_cons_of_mem a (ih _ _ _ h2)
      | true =>
        rw [remDashGo] at h
        rcases hdm : dashMatch (a :: t) with _ | ⟨lc, rest⟩ <;> rw [hdm] at h
        · rcases List.mem_cons.1 h with h2 | h2
          · subst h2
            exact List.mem_cons_self _ _
          · exact List.mem_cons_of_mem a (ih _ _ _ h2)
        · obtain ⟨w, d, s, hl, -, -, -⟩ := dashMatch_decomp hdm
          have h2 := ih _ _ _ h
          rw [hl]
          simp only [List.mem_append, List.mem_cons]
          exact Or.inr (Or.inr (Or.inr h2))

theorem remDashGo_pres {c : Char} (hc1 : isJsWs c = false) (hc2 : c ≠ '-')
    (hc3 : c ≠ '*') (fuel : ℕ) :
    ∀ (b : Bool) (l : List Char), c ∈ l → c ∈ remDashGo fuel b l := by
  induction fuel with
  | zero => intro b l h; exact h
  | succ fuel ih =>
    intro b l h
    cases l with
    | nil => cases b <;> exact h
    | cons a t =>
      cases b with
      | false =>
        rw [remDashGo]
        rcases List.mem_cons.1 h with h2 | h2
        · subst h2
          exact List.mem_cons_self _ _
        · exact List.mem_cons_of_mem a (ih _ t h2)
      | true =>
        rw [remDashGo]
        rcases hdm : dashMatch (a :: t) with _ | ⟨lc, rest⟩
        · rcases List.mem_cons.1 h with h2 | h2
          · subst h2
            exact List.mem_cons_self _ _
          · exact List.mem_cons_of_mem a (ih _ t h2)
        · obtain ⟨w, d, s, hl, hw, hd, hs⟩ := dashMatch_decomp hdm
          refine ih _ rest ?_
          rw [hl] at h
          rcases List.mem_append.1 h with h2 | h2
          · have := hw c h2
            rw [hc1] at this
            cases this
          · rcases List.mem_cons.1 h2 with h3 | h3
            · rcases hd with hd | hd <;> rw [hd] at h3
              · exact absurd h3 hc2
              · exact absurd h3 hc3
            · rcases List.mem_append.1 h3 with h4 | h4
              · have := hs c h4
                rw [hc1] at this
                cases this
              · exact h4

theorem not_lineTerm_of_not_ws {c : Char} (h : isJsWs c = false) :
    isLineTerm c = false := by
  by_contra hne
  have : isLineTerm c = true := by
    cases hE : isLineTerm c
    · exact absurd hE hne
    · rfl
  rw [ws_of_lineTerm this] at h
  cases h

theorem remDash_keeps_inline_dash {x : Char} (hx : isJsWs x = false) :
    ∀ (fuel : ℕ) (b : Bool) (u v : List Char),
      '-' ∈ remDashGo fuel b (u ++ x :: '-' :: v) := by
  intro fuel
  induction fuel with
  | zero =>
    intro b u v
    rw [remDashGo]
    simp
  | succ fuel ih =>
    intro b u v
    cases u with
    | nil =>
      rw [List.nil_append]
      cases b with
      | false =>
        rw [remDashGo]
        refine List.mem_cons_of_mem x ?_
        rw [not_lineTerm_of_not_ws hx]
        exact dash_head_not_bol fuel v
      | true =>
        rw [remDashGo, dashMatch_x_dash hx v]
        refine List.mem_cons_of_mem x ?_
        rw [not_lineTerm_of_not_ws hx]
        exact dash_head_not_bol fuel v
    | cons a u' =>
      rw [List.cons_append]
      cases b with
      | false =>
        rw [remDashGo]
        exact List.mem_cons_of_mem a (ih _ u' v)
      | true =>
        rw [remDashGo]
        rcases hdm : dashMatch (a :: (u' ++ x :: '-' :: v)) with _ | ⟨lc, rest⟩
        · exact List.mem_cons_of_mem a (ih _ u' v)
        · have hrest := dashMatch_rest_eq hdm
          rcases hu : (a :: u').dropWhile isJsWs with _ | ⟨d, r2u⟩
          · exfalso
            have hcongr : dashMatch (a :: (u' ++ x :: '-' :: v)) =
                dashMatch (x :: '-' :: v) := by
              apply dashMatch_congr
              rw [show a :: (u' ++ x :: '-' :: v) =
                (a :: u') ++ x :: '-' :: v from rfl]
              rw [dropWhile_append_nil hu, List.dropWhile_cons,
                if_neg (by simp [hx])]
            rw [hcongr, dashMatch_x_dash hx v] at hdm
            exact absurd hdm (by simp)
          · have hD : (a :: (u' ++ x :: '-' :: v)).dropWhile isJsWs =
                d :: (r2u ++ x :: '-' :: v) := by
              rw [show a :: (u' ++ x :: '-' :: v) =
                (a :: u') ++ x :: '-' :: v from rfl]
              exact dropWhile_append_cons hu _
            rw [hD] at hrest
            simp only [List.tail_cons] at hrest
            obtain ⟨ua, hua⟩ := dropWhile_append_keep (p := isJsWs) hx r2u
              ('-' :: v)
            rw [hua] at hrest
            rw [hrest]
            exact ih _ ua v

/-! ### Pass 4 (`trimGo`) -/

theorem trimGo_subset (fuel : ℕ) :
    ∀ (b : Bool) (l : List Char) (c : Char), c ∈ trimGo fuel b l → c ∈ l := by
  induction fuel with
  | zero => intro b l c h; exact h
  | succ fuel ih =>
    intro b l c h
    cases l with
    | nil => cases b <;> exact h
    | cons a t =>
      cases b with
      | true =>
        rw [trimGo] at h
        rcases hG : wsRunLast (a :: t) with _ | lc <;> rw [hG] at h
        · rcases List.mem_cons.1 h with h2 | h2
          · subst h2
            exact List.mem_cons_self _ _
          · exact List.mem_cons_of_mem a (ih _ _ _ h2)
        · exact (List.dropWhile_sublist isJsWs).mem (ih _ _ _ h)
      | false =>
        rw [trimGo] at h
        split at h
        · rcases List.mem_cons.1 h with h2 | h2
          · subst h2
            exact List.mem_cons_self _ _
          · exact List.mem_cons_of_mem a (ih _ _ _ h2)
        · exact List.drop_subset _ _ (ih _ _ _ h)

theorem trimGo_pres {c : Char} (hc : isJsWs c = false) (fuel : ℕ) :
    ∀ (b : Bool) (l : List Char), c ∈ l → c ∈ trimGo fuel b l := by
  induction fuel with
  | zero => intro b l h; exact h
  | succ fuel ih =>
    intro b l h
    cases l with
    | nil => cases b <;> exact h
    | cons a t =>
      cases b with
      | true =>
        rw [trimGo]
        rcases hG : wsRunLast (a :: t) with _ | lc
        · rcases List.mem_cons.1 h with h2 | h2
          · subst h2
            exact List.mem_cons_self _ _
          · exact List.mem_cons_of_mem a (ih _ t h2)
        · exact ih _ _ (mem_dropWhile_of_mem hc h)
      | false =>
        rw [trimGo]
        split
        · rcases List.mem_cons.1 h with h2 | h2
          · subst h2
            exact List.mem_cons_self _ _
          · exact List.mem_cons_of_mem a (ih _ t h2)
        · rename_i hk
          refine ih _ _ ?_
          have hkle : bestTrim (a :: t) ≤ ((a :: t).takeWhile isJsWs).length :=
            bestTrim_le _
          have hsplit : c ∈ (a :: t).take (bestTrim (a :: t)) ++
              (a :: t).drop (bestTrim (a :: t)) := by
            rw [List.take_append_drop]
            exact h
          rcases List.mem_append.1 hsplit with h2 | h2
          · exfalso
            have htw : ((a :: t).takeWhile isJsWs ++
                  (a :: t).dropWhile isJsWs).take (bestTrim (a :: t)) =
                ((a :: t).takeWhile isJsWs).take (bestTrim (a :: t)) :=
              List.take_append_of_le_length hkle
            rw [List.takeWhile_append_dropWhile] at htw
            rw [htw] at h2
            have h3 := List.take_subset _ _ h2
            have := List.mem_takeWhile_imp h3
            rw [hc] at this
            cases this
          · exact h2

/-! ### Pass 5 (`renumGo`) -/

theorem renumGo_subset (fuel : ℕ) :
    ∀ (b : Bool) (l : List Char) (c : Char),
      c ∈ renumGo fuel b l → c ∈ l ∨ c = '.' ∨ c = ' ' := by
  induction fuel with
  | zero => intro b l c h; exact Or.inl h
  | succ fuel ih =>
    intro b l c h
    cases l with
    | nil => cases b <;> exact Or.inl h
    | cons a t =>
      cases b with
      | false =>
        rw [renumGo] at h
        rcases List.mem_cons.1 h with h2 | h2
        · exact Or.inl (h2 ▸ List.mem_cons_self _ _)
        · rcases ih _ _ _ h2 with h3 | h3
          · exact Or.inl (List.mem_cons_of_mem a h3)
          · exact Or.inr h3
      | true =>
        rw [renumGo] at h
        rcases hnm : numMatch (a :: t) with _ | ⟨ds, lc, rest⟩ <;>
          rw [hnm] at h
        · rcases List.mem_cons.1 h with h2 | h2
          · exact Or.inl (h2 ▸ List.mem_cons_self _ _)
          · rcases ih _ _ _ h2 with h3 | h3
            · exact Or.inl (List.mem_cons_of_mem a h3)
            · exact Or.inr h3
        · obtain ⟨W, S, hl, -, -, -⟩ := numMatch_decomp hnm
          rcases List.mem_append.1 h with h2 | h2
          · refine Or.inl ?_
            rw [hl]
            simp only [List.mem_append, List.mem_cons]
            tauto
          · rcases List.mem_cons.1 h2 with h3 | h3
            · exact Or.inr (Or.inl h3)
            · rcases List.mem_cons.1 h3 with h4 | h4
              · exact Or.inr (Or.inr h4)
              · rcases ih _ _ _ h4 with h5 | h5
                · refine Or.inl ?_
                  rw [hl]
                  simp only [List.mem_append, List.mem_cons]
                  tauto
                · exact Or.inr h5

theorem renumGo_pres {c : Char} (hc1 : isJsWs c = false)
    (hc2 : isDig c = false) (hc3 : c ≠ '.') (fuel : ℕ) :
    ∀ (b : Bool) (l : List Char), c ∈ l → c ∈ renumGo fuel b l := by
  induction fuel with
  | zero => intro b l h; exact h
  | succ fuel ih =>
    intro b l h
    cases l with
    | nil => cases b <;> exact h
    | cons a t =>
      cases b with
      | false =>
        rw [renumGo]
        rcases List.mem_cons.1 h with h2 | h2
        · subst h2
          exact List.mem_cons_self _ _
        · exact List.mem_cons_of_mem a (ih _ t h2)
      | true =>
        rw [renumGo]
        rcases hnm : numMatch (a :: t) with _ | ⟨ds, lc, rest⟩
        · rcases List.mem_cons.1 h with h2 | h2
          · subst h2
            exact List.mem_cons_self _ _
          · exact List.mem_cons_of_mem a (ih _ t h2)
        · obtain ⟨W, S, hl, hW, hds, hS⟩ := numMatch_decomp hnm
          have hrest : c ∈ rest := by
            rw [hl] at h
            rcases List.mem_append.1 h with h2 | h2
            · rcases List.mem_append.1 h2 with h3 | h3
              · have := hW c h3
                rw [hc1] at this
                cases this
              · have := hds c h3
                rw [hc2] at this
                cases this
            · rcases List.mem_cons.1 h2 with h3 | h3
              · exact absurd h3 hc3
              · rcases List.mem_append.1 h3 with h4 | h4
                · have := hS c h4
                  rw [hc1] at this
                  cases this
                · exact h4
          refine List.mem_append_right ds ?_
          exact List.mem_cons_of_mem _ (List.mem_cons_of_mem _ (ih _ rest hrest))

/-! ### The five passes combined -/

theorem clean_no_star (t : List Char) : '*' ∉ cleanAiResponse t := by
  intro hmem
  unfold cleanAiResponse renumScan trimScan remDash remHash at hmem
  rcases renumGo_subset _ _ _ _ hmem with h1 | h1 | h1
  · have h2 := trimGo_subset _ _ _ _ h1
    have h3 := remDashGo_subset _ _ _ _ h2
    have h4 := remHashGo_subset _ _ _ h3
    exact star_not_mem_remStars t h4
  · exact absurd h1 (by decide)
  · exact absurd h1 (by decide)

theorem clean_no_hash (t : List Char) : '#' ∉ cleanAiResponse t := by
  intro hmem
  unfold cleanAiResponse renumScan trimScan remDash remHash at hmem
  rcases renumGo_subset _ _ _ _ hmem with h1 | h1 | h1
  · have h2 := trimGo_subset _ _ _ _ h1
    have h3 := remDashGo_subset _ _ _ _ h2
    exact hash_not_mem_remHashGo _ _ (le_refl _) h3
  · exact absurd h1 (by decide)
  · exact absurd h1 (by decide)

theorem clean_underscore_iff (t : List Char) :
    '_' ∈ cleanAiResponse t ↔ '_' ∈ t := by
  unfold cleanAiResponse renumScan trimScan remDash remHash
  constructor
  · intro hmem
    rcases renumGo_subset _ _ _ _ hmem with h1 | h1 | h1
    · have h2 := trimGo_subset _ _ _ _ h1
      have h3 := remDashGo_subset _ _ _ _ h2
      have h4 := remHashGo_subset _ _ _ h3
      exact (mem_remStars.1 h4).1
    · exact absurd h1 (by decide)
    · exact absurd h1 (by decide)
  · intro hmem
    refine renumGo_pres (by decide) (by decide) (by decide) _ _ _ ?_
    refine trimGo_pres (by decide) _ _ _ ?_
    refine remDashGo_pres (by decide) (by decide) (by decide) _ _ _ ?_
    refine remHashGo_pres (by decide) (by decide) _ _ ?_
    exact mem_remStars.2 ⟨hmem, by decide⟩

theorem clean_keeps_inline_dash {x : Char} (hx1 : isJsWs x = false)
    (hx2 : x ≠ '*') (hx3 : x ≠ '#') (u v : List Char) :
    '-' ∈ cleanAiResponse (u ++ x :: '-' :: v) := by
  unfold cleanAiResponse renumScan trimScan
  have h1 : remStars (u ++ x :: '-' :: v) =
      remStars u ++ x :: '-' :: remStars v := by
    rw [remStars_append]
    simp [remStars, List.filter_cons, hx2]
  rw [h1]
  unfold remHash
  obtain ⟨u2, hu2⟩ := remHash_adj hx1 hx3
    (remStars u ++ x :: '-' :: remStars v).length (remStars u)
    ('-' :: remStars v) (le_refl _)
  rw [hu2]
  have h3 : remHash ('-' :: remStars v) =
      '-' :: remHashGo (remStars v).length (remStars v) := by
    rw [remHash]
    simp only [List.length_cons]
    rw [remHashGo, if_neg (by decide)]
  rw [h3]
  refine renumGo_pres (by decide) (by decide) (by decide) _ _ _ ?_
  refine trimGo_pres (by decide) _ _ _ ?_
  exact remDash_keeps_inline_dash hx1 _ _ _ _

theorem validate_false_of_dash {t : List Char} (h : '-' ∈ t) :
    validateResponseFormat t = false := by
  rw [validateResponseFormat,
    if_pos (List.any_eq_true.2 ⟨'-', h, by decide⟩)]

/-- C10: validation rejects any text containing `*`, `#`, `_` or `-` or
missing either marker; cleaning removes every asterisk and every `#` run
(markdown headers included) and removes line-leading list dashes, but keeps
underscores and inline hyphens (a hyphen preceded by a non-whitespace,
non-markup character); hence a response whose cleaned text still contains a
hyphen fails validation on every attempt and the file yields no
`FileInsight`. -/
theorem C10_cleaning_validation :
    (∀ t : List Char,
      ('*' ∈ t ∨ '#' ∈ t ∨ '_' ∈ t ∨ '-' ∈ t ∨
        containsSub t scoreMarker = false ∨ containsSub t recsMarker = false) →
      validateResponseFormat t = false) ∧
    (∀ t : List Char, '*' ∉ cleanAiResponse t ∧ '#' ∉ cleanAiResponse t ∧
      ('_' ∈ cleanAiResponse t ↔ '_' ∈ t)) ∧
    cleanAiResponse "- hello".toList = "hello".toList ∧
    (∀ (u v : List Char) (x : Char), isJsWs x = false → x ≠ '*' → x ≠ '#' →
      '-' ∈ cleanAiResponse (u ++ x :: '-' :: v)) ∧
    (∀ t : List Char, '-' ∈ cleanAiResponse t →
      validateResponseFormat (cleanAiResponse t) = false) ∧
    (∀ (groqKey : Bool) (w : FileWorld) (f : GitHubFile),
      (∀ i raw, w.responses i = some raw → '-' ∈ cleanAiResponse raw) →
      processCodeFile groqKey w f = none) := by
  refine ⟨?_, ?_, ?_, ?_, ?_, ?_⟩
  · intro t ht
    by_cases hA : t.any forbiddenChar
    · rw [validateResponseFormat, if_pos hA]
    · rcases ht with h | h | h | h | h | h
      · exact absurd (List.any_eq_true.2 ⟨'*', h, by decide⟩) hA
      · exact absurd (List.any_eq_true.2 ⟨'#', h, by decide⟩) hA
      · exact absurd (List.any_eq_true.2 ⟨'_', h, by decide⟩) hA
      · exact absurd (List.any_eq_true.2 ⟨'-', h, by decide⟩) hA
      · rw [validateResponseFormat, if_neg hA, if_pos (by simp [h])]
      · rw [validateResponseFormat, if_neg hA, if_pos (by simp [h])]
  · intro t
    exact ⟨clean_no_star t, clean_no_hash t, clean_underscore_iff t⟩
  · simp [cleanAiResponse, renumScan, trimScan, remDash, remHash, remStars,
      renumGo, trimGo, remDashGo, remHashGo, dashMatch, numMatch, wsRunLast,
      bestTrim, bestTrimAux, tailBd, isJsWs, isLineTerm, isDig]
  · intro u v x hx1 hx2 hx3
    exact clean_keeps_inline_dash hx1 hx2 hx3 u v
  · intro t h
    exact validate_false_of_dash h
  · intro groqKey w f hresp
    have hinv : ∀ i raw, i < 3 → w.responses i = some raw →
        validateResponseFormat (cleanAiResponse raw) = false := by
      intro i raw _ hr
      exact validate_false_of_dash (hresp i raw hr)
    have h1 := attemptLoop_none_of_invalid w.responses hinv 3 0 (by omega)
    unfold processCodeFile
    cases w.content with
    | none => rfl
    | some c =>
      simp only [h1]
      cases groqKey <;> simp

theorem C10_cleaning_validation_witness :
    processCodeFile true ⟨some [], fun _ => some "well-known".toList⟩
      ⟨"a.ts".toList, "blob", 1⟩ = none := by
  refine C10_cleaning_validation.2.2.2.2.2 true
    ⟨some [], fun _ => some "well-known".toList⟩ ⟨"a.ts".toList, "blob", 1⟩ ?_
  intro i raw hr
  injection hr with hr
  subst hr
  simp [cleanAiResponse, renumScan, trimScan, remDash, remHash, remStars,
    renumGo, trimGo, remDashGo, remHashGo, dashMatch, numMatch, wsRunLast,
    bestTrim, bestTrimAux, tailBd, isJsWs, isLineTerm, isDig]

/-! ## The request pipeline (lines 106–546) -/

inductive Status
  | pending
  | completed
  | failed
deriving DecidableEq

/-- The `analyses` row as far as the pipeline writes it: lifecycle status,
`stack_score` and `summary`.  The `suggestions`, `tech_stack` and
`file_insights` columns are written by the same single update call and are
omitted here (no claim mentions them). -/
structure DbRecord where
  status : Status
  stack_score : Option ℤ
  summary : Option (List Char)
deriving DecidableEq

/-- External interactions of one run, in order. -/
inductive Event
  | insertRecord
  | fetchRepoInfo
  | fetchTree
  | fetchContent (path : List Char)
  | updateRecord
deriving DecidableEq

def isFetchEvent : Event → Bool
  | Event.fetchRepoInfo => true
  | Event.fetchTree => true
  | Event.fetchContent _ => true
  | _ => false

/-- The JSON bodies returned by the handler, as optional fields; `status` is
the HTTP status code (`res.json` defaults to 200). -/
structure Response where
  status : ℕ
  success : Option Bool
  analysisId : Option (List Char)
  score : Option ℤ
  filesAnalyzed : Option ℕ
  languages : Option ℕ
  frameworks : Option ℕ
  securityIssues : Option ℕ
  error : Option (List Char)
deriving DecidableEq

/-- The external world of one request: auth results, database call results,
repository-host responses, and per code file its content fetch and reviewer
attempts.  `configFrameworks`/`configTools` are the additions of the
manifest pass (lines 240–304, whose JSON/line parsing of external manifest
content is abstracted as an environment observation); `secHit`/`qualHit`
abstract whether the section-extraction regexes (lines 440–450) find
non-empty security/quality text in the file's validated analysis. -/
structure Env where
  authHeader : Bool
  userOk : Bool
  insertOk : Bool
  recordId : List Char
  repoOk : Bool
  repoName : List Char
  treeOk : Bool
  tree : List GitHubFile
  configFrameworks : List String
  configTools : List String
  groqKey : Bool
  world : GitHubFile → FileWorld
  secHit : GitHubFile → Bool
  qualHit : GitHubFile → Bool
  updateOk : Bool

/-- Architecture-pattern detection from code content (lines 328–331). -/
def codeArchPatterns (content : List Char) : List String :=
  (if containsSub content "class ".toList &&
      containsSub content "extends".toList then ["Object-Oriented"] else []) ++
  (if containsSub content "function".toList &&
      containsSub content "=>".toList then ["Functional Programming"] else []) ++
  (if containsSub content "import".toList &&
      containsSub content "from".toList then ["Modular Architecture"] else []) ++
  (if containsSub content "async".toList &&
      containsSub content "await".toList then ["Asynchronous Programming"]
   else [])

/-- Framework detection from code content (lines 332–334). -/
def codeFrameworkTags (content : List Char) : List String :=
  (if containsSub content "useState".toList ||
      containsSub content "useEffect".toList then ["React Hooks"] else []) ++
  (if containsSub content "@Component".toList ||
      containsSub content "@Injectable".toList then ["Angular"] else []) ++
  (if containsSub content "@RestController".toList ||
      containsSub content "@Service".toList then ["Spring Boot"] else [])

/-- Code files whose content fetch succeeded; only these contribute to
`languageStats` and the content-based detections (lines 318–334). -/
def contentOkFiles (env : Env) : List GitHubFile :=
  (codeFilesOf env.tree).filter (fun f => ((env.world f).content).isSome)

def langCountOf (env : Env) : ℕ :=
  ((contentOkFiles env).map (fun f => extOf f.path)).dedup.length

def archPatternsOf (env : Env) : List String :=
  ((contentOkFiles env).map
    (fun f => codeArchPatterns (((env.world f).content).getD []))).flatten.dedup

def frameworksOf (env : Env) : List String :=
  (env.configFrameworks ++
    ((contentOkFiles env).map
      (fun f =>
        codeFrameworkTags (((env.world f).content).getD []))).flatten).dedup

/-- The collected `fileInsights`: the batches are processed in order and the
non-null task results appended (lines 306–472). -/
def insightsOf (env : Env) : List FileInsight :=
  (sliceBatches (codeFilesOf env.tree)).flatten.filterMap
    (fun f => processCodeFile env.groqKey (env.world f) f)

/-- `securityIssues.length`: one push per reviewed file with non-empty
security-review text (lines 448–450). -/
def secCountOf (env : Env) : ℕ :=
  ((codeFilesOf env.tree).filter (fun f =>
    (processCodeFile env.groqKey (env.world f) f).isSome &&
      env.secHit f)).length

def qualCountOf (env : Env) : ℕ :=
  ((codeFilesOf env.tree).filter (fun f =>
    (processCodeFile env.groqKey (env.world f) f).isSome &&
      env.qualHit f)).length

def scoreOf (env : Env) : ℤ :=
  finalScore (insightsOf env) (archPatternsOf env).length
    (frameworksOf env).length (secCountOf env)

/-- `avgQuality` (lines 488–489): `Math.round(avg * 10) / 10`. -/
def avgQualityOf (env : Env) : ℚ :=
  if 0 < (insightsOf env).length then
    ((round ((((insightsOf env).map (fun i => (i.score : ℚ))).sum /
      ((insightsOf env).length : ℚ)) * 10) : ℤ) : ℚ) / 10
  else 0

/-- The summary template (lines 491–497); numbers are rendered with
`toString` (the rational average in Lean's rational notation). -/
def mainSummary (env : Env) : List Char :=
  "Comprehensive analysis of ".toList ++ env.repoName ++
  (": Analyzed " ++ toString (insightsOf env).length ++ " files across " ++
   toString (langCountOf env) ++ " languages. \n    \nArchitecture: " ++
   (if (archPatternsOf env).isEmpty then "Basic structure detected"
    else String.intercalate ", " (archPatternsOf env)) ++
   "\nFrameworks: " ++
   (if (frameworksOf env).isEmpty then "No major frameworks detected"
    else String.intercalate ", " (frameworksOf env)) ++
   "\nCode Quality: Average score " ++ toString (avgQualityOf env) ++
   "/10\nSecurity: " ++ toString (secCountOf env) ++
   " potential security concerns identified\nTechnical Debt: " ++
   toString (qualCountOf env) ++ " code quality issues found").toList

/-- Summary of the zero-relevant-files branch (line 196). -/
def zeroSummary : List Char :=
  "Repository analyzed but no supported files found.".toList

def pendingRecord : DbRecord := ⟨Status.pending, none, none⟩

def errResp (msg : List Char) : Response :=
  ⟨500, none, none, none, none, none, none, none, some msg⟩

structure RunOutcome where
  record : Option DbRecord
  resp : Response
  trace : List Event
deriving DecidableEq

/-- The `POST /analyze-repository` handler (lines 106–546).  External calls
resolve through `env`; `record` is the final state of the `analyses` row
(`none` when it was never created), `resp` the HTTP response, and `trace`
the ordered external interactions.  A failed update leaves the row
unchanged and the thrown error reaches the catch handler (lines 540–545),
which only returns a 500 response. -/
def runPipeline (env : Env) : RunOutcome :=
  match env.authHeader with
  | false => ⟨none, errResp "Authorization header missing".toList, []⟩
  | true =>
  match env.userOk with
  | false => ⟨none, errResp "User not authenticated".toList, []⟩
  | true =>
  match env.insertOk with
  | false => ⟨none, errResp "Failed to create analysis record: ".toList, []⟩
  | true =>
  match env.repoOk with
  | false =>
    ⟨some pendingRecord,
      errResp "Repository not found or not accessible: ".toList,
      [Event.insertRecord, Event.fetchRepoInfo]⟩
  | true =>
  match env.treeOk with
  | false =>
    ⟨some pendingRecord, errResp "Failed to fetch file tree: ".toList,
      [Event.insertRecord, Event.fetchRepoInfo, Event.fetchTree]⟩
  | true =>
  match (allFilesOf env.tree).isEmpty with
  | true =>
    match env.updateOk with
    | true =>
      ⟨some ⟨Status.completed, some 1, some zeroSummary⟩,
        ⟨200, some true, some env.recordId, some 1, some 0, none, none, none,
          none⟩,
        [Event.insertRecord, Event.fetchRepoInfo, Event.fetchTree,
          Event.updateRecord]⟩
    | false =>
      ⟨some pendingRecord, errResp "Failed to update analysis: ".toList,
        [Event.insertRecord, Event.fetchRepoInfo, Event.fetchTree,
          Event.updateRecord]⟩
  | false =>
    match env.updateOk with
    | true =>
      ⟨some ⟨Status.completed, some (scoreOf env), some (mainSummary env)⟩,
        ⟨200, some true, some env.recordId, some (scoreOf env),
          some (insightsOf env).length, some (langCountOf env),
          some (frameworksOf env).length, some (secCountOf env), none⟩,
        [Event.insertRecord, Event.fetchRepoInfo, Event.fetchTree] ++
          (configFilesOf env.tree).map (fun f => Event.fetchContent f.path) ++
          (sliceBatches (codeFilesOf env.tree)).flatten.map
            (fun f => Event.fetchContent f.path) ++ [Event.updateRecord]⟩
    | false =>
      ⟨some pendingRecord, errResp "Failed to update analysis: ".toList,
        [Event.insertRecord, Event.fetchRepoInfo, Event.fetchTree] ++
          (configFilesOf env.tree).map (fun f => Event.fetchContent f.path) ++
          (sliceBatches (codeFilesOf env.tree)).flatten.map
            (fun f => Event.fetchContent f.path) ++ [Event.updateRecord]⟩

/-! ## C2, C6, C7: lifecycle and response shape -/

/-- C2 amended: the record is created in `pending` before any fetch begins;
on any unrecovered failure the response is a 500 carrying an error message
while the record is left as created (`pending`) or absent — the code never
marks a record `failed`; a `completed` record always carries a score in
[1,10]; no reachable record has status `failed` (so "failed ⇒ no score"
holds vacuously). -/
theorem C2_amended_lifecycle (env : Env) :
    ((∃ e ∈ (runPipeline env).trace, isFetchEvent e = true) →
      (runPipeline env).trace.head? = some Event.insertRecord) ∧
    ((runPipeline env).resp.status = 500 →
      ((runPipeline env).resp.error).isSome ∧
      ((runPipeline env).record = none ∨
        (runPipeline env).record = some pendingRecord)) ∧
    (∀ r, (runPipeline env).record = some r → r.status = Status.completed →
      ∃ s, r.stack_score = some s ∧ 1 ≤ s ∧ s ≤ 10) ∧
    (∀ r, (runPipeline env).record = some r → r.status ≠ Status.failed) := by
  unfold runPipeline
  cases env.authHeader <;> cases env.userOk <;> cases env.insertOk <;>
    cases env.repoOk <;> cases env.treeOk <;>
    cases (allFilesOf env.tree).isEmpty <;> cases env.updateOk <;>
    refine ⟨?_, ?_, ?_, ?_⟩ <;>
    first
      | exact fun h => absurd h (ne_of_beq_false rfl)
      | exact fun _ => rfl
      | exact fun hx => absurd hx (by rintro ⟨e, he, -⟩; cases he)
      | exact fun _ => ⟨rfl, Or.inl rfl⟩
      | exact fun _ => ⟨rfl, Or.inr rfl⟩
      | (intro r hr st
         exact Option.noConfusion hr)
      | (intro r hr
         exact Option.noConfusion hr)
      | (intro r hr st
         injection hr with hr
         subst hr
         exact absurd st (by decide))
      | (intro r hr
         injection hr with hr
         subst hr
         exact fun hc => Status.noConfusion hc)
      | (intro r hr st
         injection hr with hr
         subst hr
         exact ⟨1, rfl, by norm_num, by norm_num⟩)
      | (intro r hr st
         injection hr with hr
         subst hr
         exact ⟨scoreOf env, rfl, (finalScore_bounds _ _ _ _).1,
           (finalScore_bounds _ _ _ _).2⟩)

def envC2 : Env where
  authHeader := true
  userOk := true
  insertOk := true
  recordId := []
  repoOk := false
  repoName := []
  treeOk := true
  tree := []
  configFrameworks := []
  configTools := []
  groqKey := false
  world := fun _ => ⟨none, fun _ => none⟩
  secHit := fun _ => false
  qualHit := fun _ => false
  updateOk := true

/-- C2 counterexample: a run whose repository fetch fails returns a 500 but
leaves the record in `pending` — it is neither left nor marked `failed`. -/
theorem C2_record_not_failed_counterexample :
    (runPipeline envC2).resp.status = 500 ∧
    (runPipeline envC2).record = some pendingRecord ∧
    pendingRecord.status ≠ Status.failed :=
  ⟨rfl, rfl, by decide⟩

theorem C2_amended_lifecycle_witness :
    ((runPipeline envC2).resp.error).isSome ∧
    ((runPipeline envC2).record = none ∨
      (runPipeline envC2).record = some pendingRecord) :=
  (C2_amended_lifecycle envC2).2.1 rfl

/-- C6: a run that classifies zero code files as relevant completes: the
record ends `completed` with score 1 and a non-empty summary, and the
response is a 200 success with score 1. -/
theorem C6_zero_code_files (env : Env) (h1 : env.authHeader = true)
    (h2 : env.userOk = true) (h3 : env.insertOk = true)
    (h4 : env.repoOk = true) (h5 : env.treeOk = true)
    (h6 : env.updateOk = true) (h7 : codeFilesOf env.tree = []) :
    ∃ r, (runPipeline env).record = some r ∧ r.status = Status.completed ∧
      r.stack_score = some 1 ∧ (∃ s, r.summary = some s ∧ s ≠ []) ∧
      (runPipeline env).resp.status = 200 ∧
      (runPipeline env).resp.success = some true ∧
      (runPipeline env).resp.score = some 1 := by
  have hins : insightsOf env = [] := by
    unfold insightsOf
    rw [h7]
    simp [sliceBatches]
  have hscore : scoreOf env = 1 := by
    unfold scoreOf
    rw [hins]
    rfl
  unfold runPipeline
  rw [h1, h2, h3, h4, h5, h6]
  cases hall : (allFilesOf env.tree).isEmpty
  · refine ⟨_, rfl, rfl, by simp [hscore], ⟨mainSummary env, rfl, ?_⟩,
      rfl, rfl, by simp [hscore]⟩
    unfold mainSummary
    exact fun hcontra => List.noConfusion hcontra
  · exact ⟨_, rfl, rfl, rfl, ⟨zeroSummary, rfl, by decide⟩, rfl, rfl, rfl⟩

def envC6 : Env := { envC2 with repoOk := true }

theorem C6_zero_code_files_witness :
    ∃ r, (runPipeline envC6).record = some r ∧
      r.status = Status.completed ∧ r.stack_score = some 1 ∧
      (∃ s, r.summary = some s ∧ s ≠ []) ∧
      (runPipeline envC6).resp.status = 200 ∧
      (runPipeline envC6).resp.success = some true ∧
      (runPipeline envC6).resp.score = some 1 :=
  C6_zero_code_files envC6 rfl rfl rfl rfl rfl rfl rfl

/-- C7 amended: a 200 success always carries `success: true`, `analysisId`,
`score` and `filesAnalyzed`; `languages`, `frameworks` and `securityIssues`
are present exactly on the non-zero-files path (the zero-relevant-files
success response omits them); every failure is a 500 whose body carries an
error string. -/
theorem C7_response_shape (env : Env) :
    ((runPipeline env).resp.status = 200 →
      (runPipeline env).resp.success = some true ∧
      ((runPipeline env).resp.analysisId).isSome ∧
      ((runPipeline env).resp.score).isSome ∧
      ((runPipeline env).resp.filesAnalyzed).isSome ∧
      ((allFilesOf env.tree).isEmpty = false →
        ((runPipeline env).resp.languages).isSome ∧
        ((runPipeline env).resp.frameworks).isSome ∧
        ((runPipeline env).resp.securityIssues).isSome)) ∧
    ((runPipeline env).resp.status ≠ 200 →
      (runPipeline env).resp.status = 500 ∧
      ((runPipeline env).resp.error).isSome) := by
  unfold runPipeline
  cases env.authHeader <;> cases env.userOk <;> cases env.insertOk <;>
    cases env.repoOk <;> cases env.treeOk <;>
    cases hAll : (allFilesOf env.tree).isEmpty <;> cases env.updateOk <;>
    refine ⟨?_, ?_⟩ <;>
    first
      | exact fun h => absurd h (ne_of_beq_false rfl)
      | exact fun h => absurd rfl h
      | exact fun _ => ⟨rfl, rfl⟩
      | exact fun _ => ⟨rfl, rfl, rfl, rfl, fun hC => Bool.noConfusion hC⟩
      | exact fun _ => ⟨rfl, rfl, rfl, rfl, fun _ => ⟨rfl, rfl, rfl⟩⟩

def envC7 : Env := { envC2 with repoOk := true }

/-- C7 counterexample: the zero-relevant-files run succeeds (HTTP 200,
`success: true`) yet its body contains no `languages`, `frameworks` or
`securityIssues` fields, refuting "every successful response contains
them". -/
theorem C7_zero_files_counterexample :
    (runPipeline envC7).resp.status = 200 ∧
    (runPipeline envC7).resp.success = some true ∧
    (runPipeline envC7).resp.languages = none ∧
    (runPipeline envC7).resp.frameworks = none ∧
    (runPipeline envC7).resp.securityIssues = none :=
  ⟨rfl, rfl, rfl, rfl, rfl⟩

theorem C7_response_shape_witness :
    (runPipeline envC7).resp.success = some true ∧
    ((runPipeline envC7).resp.analysisId).isSome ∧
    ((runPipeline envC7).resp.score).isSome ∧
    ((runPipeline envC7).resp.filesAnalyzed).isSome ∧
    ((allFilesOf envC7.tree).isEmpty = false →
      ((runPipeline envC7).resp.languages).isSome ∧
      ((runPipeline envC7).resp.frameworks).isSome ∧
      ((runPipeline envC7).resp.securityIssues).isSome) :=
  (C7_response_shape envC7).1 rfl

end StackCompass
